import Mathlib

/-!
Verification development for the pnumpy stencil components
(src/pnStencilOperator.py and src/pnLaplacian.py).

Arrays are modelled as flat lists of integers: every stencil weight and
every datum this code exercises is an integral python float (-2.0 * ndims,
1.0, 2.0, integer test data), which the integers embed exactly.
Python dicts are modelled as insertion-ordered association lists with the
python update semantics: assignment to an existing key overwrites the
value in place, assignment to a fresh key appends.  Slices are modelled
as lists of flat indices.
-/

namespace Pnumpy

/-- A displacement vector (a python tuple of ints). -/
abbrev Disp := List Int

/-- Dict lookup: first entry with the given key. -/
def alookup (xs : List (Disp × ℤ)) (k : Disp) : Option ℤ :=
  match xs with
  | [] => none
  | (k2, v) :: rest => if k2 = k then some v else alookup rest k

/-- Number of entries carrying the given key. -/
def countKey (xs : List (Disp × ℤ)) (k : Disp) : Nat :=
  xs.countP (fun p => p.1 = k)

/-- Python dict assignment d[k] = v: overwrite in place or append. -/
def dictSet (xs : List (Disp × ℤ)) (k : Disp) (v : ℤ) : List (Disp × ℤ) :=
  match xs with
  | [] => [(k, v)]
  | (k2, v2) :: rest =>
      if k2 = k then (k2, v) :: rest else (k2, v2) :: dictSet rest k v

/-- Python dict deletion del d[k]: removes the first entry with that key. -/
def dictRemove (xs : List (Disp × ℤ)) (k : Disp) : List (Disp × ℤ) :=
  match xs with
  | [] => []
  | (k2, v2) :: rest =>
      if k2 = k then rest else (k2, v2) :: dictRemove rest k

/-- Read a slice (list of flat indices) out of an array. -/
def getIdx (xs : List ℤ) (idx : List Nat) : List ℤ :=
  idx.map (fun i => xs.getD i 0)

/-- numpy slice assignment xs[idx] = vals (elementwise). -/
def setIdx (xs : List ℤ) (idx : List Nat) (vals : List ℤ) : List ℤ :=
  (idx.zip vals).foldl (fun a iv => a.set iv.1 iv.2) xs

/-- numpy accumulation xs[idx] += w * vals (elementwise). -/
def addIdx (xs : List ℤ) (idx : List Nat) (w : ℤ) (vals : List ℤ) : List ℤ :=
  (idx.zip vals).foldl (fun a iv => a.set iv.1 (a.getD iv.1 0 + w * iv.2)) xs

/-! ## StencilOperator (src/pnStencilOperator.py)

The partition logic stores, per displacement, four parallel lists
(srcs, dsts, remoteRanks, remoteWinIds) built in lockstep from the same
domain-partition iterator; they are modelled as one list of records. -/

/-- One part of the partition plan of a displacement: the elements of the
four parallel lists srcs, dsts, remoteRanks, remoteWinIds at one index. -/
structure DpiPart where
  src : List Nat
  dst : List Nat
  remoteRank : Option Nat
  remoteWinId : String
deriving DecidableEq, Repr

/-- State of a StencilOperator: the stencil dict and the dpis dict. -/
structure StencilOp where
  stencil : List (Disp × ℤ)
  dpis : List (Disp × List DpiPart)
deriving DecidableEq, Repr

/-- Dict lookup in the dpis table. -/
def plookup (xs : List (Disp × List DpiPart)) (k : Disp) : Option (List DpiPart) :=
  match xs with
  | [] => none
  | (k2, v) :: rest => if k2 = k then some v else plookup rest k

/-- Python dict assignment for the dpis table. -/
def pdictSet (xs : List (Disp × List DpiPart)) (k : Disp) (v : List DpiPart) :
    List (Disp × List DpiPart) :=
  match xs with
  | [] => [(k, v)]
  | (k2, v2) :: rest =>
      if k2 = k then (k2, v) :: rest else (k2, v2) :: pdictSet rest k v

/-- Number of entries carrying the given key in the dpis table. -/
def pcountKey (xs : List (Disp × List DpiPart)) (k : Disp) : Nat :=
  xs.countP (fun p => p.1 = k)

/-- StencilOperator.addStencilBranch: stencil[disp] = weight, then
setPartionLogic stores the partition plan under dpis[disp].  The plan
itself is computed by the external DomainPartitionIter and decomposition
(outside src/), abstracted as the planFor argument. -/
def addStencilBranch (op : StencilOp) (d : Disp) (w : ℤ)
    (planFor : Disp → List DpiPart) : StencilOp :=
  { stencil := dictSet op.stencil d w
    dpis := pdictSet op.dpis d (planFor d) }

/-- Python runtime errors surfaced by the modelled code. -/
inductive PyErr where
  | keyError
  | attributeError
  | fetchError
deriving DecidableEq, Repr

/-- StencilOperator.removeStencilBranch: executes del self.stencil[disp]
and then del self.dpsi[disp].  The object has no attribute dpsi (the
table populated on add is self.dpis), so the second statement raises
AttributeError after the first has already removed the weight entry.
Returns the state as left behind together with the raised error. -/
def removeStencilBranch (op : StencilOp) (d : Disp) : StencilOp × Option PyErr :=
  match alookup op.stencil d with
  | none => (op, some PyErr.keyError)
  | some _ =>
      let op1 : StencilOp := { op with stencil := dictRemove op.stencil d }
      (op1, some PyErr.attributeError)

/-- Events emitted by StencilOperator.apply towards the remote-array
service: window exposure (with the exposed data), remote fetch, free. -/
inductive OpEvent where
  | expose (data : List ℤ) (winId : String)
  | fetch (rk : Option Nat) (winId : String)
  | free
deriving DecidableEq, Repr

/-- The store threaded through StencilOperator.apply: the operator object,
the callers localArray, the fresh buffers inp and out, the event log and
the pending python exception (none while no statement has raised). -/
structure ApplyState where
  op : StencilOp
  localArray : List ℤ
  inp : List ℤ
  out : List ℤ
  events : List OpEvent
  err : Option PyErr
deriving DecidableEq, Repr

/-- inp.expose(srcs[i], winID=remoteWinIds[i]): the data made visible is
the addressed slice of inp (the daZeros buffer). -/
def exposePart (s : ApplyState) (part : DpiPart) : ApplyState :=
  { s with events := s.events ++ [OpEvent.expose (getIdx s.inp part.src) part.remoteWinId] }

/-- Inner loop of the expose phase over the parts of one dpis entry. -/
def exposeItem (s : ApplyState) (item : Disp × List DpiPart) : ApplyState :=
  item.2.foldl exposePart s

/-- First loop of StencilOperator.apply: expose every window of every
dpis entry. -/
def exposePhase (s : ApplyState) : ApplyState :=
  s.op.dpis.foldl exposeItem s

/-- One fetch-and-accumulate step:
out[dstSlce] += weight * inp.getData(remoteRank, remoteWinId).
The remote fetch is performed by the external distributed-array service,
abstracted as the fetch argument; none models a raised exception.
A pending exception skips the statement (python unwinding). -/
def fetchPart (w : ℤ) (fetch : Option Nat → String → Option (List ℤ))
    (s : ApplyState) (part : DpiPart) : ApplyState :=
  if s.err.isSome then s else
  let s3 := { s with events := s.events ++ [OpEvent.fetch part.remoteRank part.remoteWinId] }
  match fetch part.remoteRank part.remoteWinId with
  | none => { s3 with err := some PyErr.fetchError }
  | some data => { s3 with out := addIdx s3.out part.dst w data }

/-- One iteration of the stencil loop: dpi = self.dpis[disp] (KeyError if
absent), then the fetch-accumulate loop over its parts. -/
def stencilItem (fetch : Option Nat → String → Option (List ℤ))
    (s : ApplyState) (item : Disp × ℤ) : ApplyState :=
  if s.err.isSome then s else
  match plookup s.op.dpis item.1 with
  | none => { s with err := some PyErr.keyError }
  | some parts => parts.foldl (fetchPart item.2 fetch) s

/-- Second loop of StencilOperator.apply: accumulate every stencil branch. -/
def stencilPhase (fetch : Option Nat → String → Option (List ℤ))
    (s : ApplyState) : ApplyState :=
  s.op.stencil.foldl (stencilItem fetch) s

/-- Final statement inp.free(): runs only when no exception is pending. -/
def freePhase (s : ApplyState) : ApplyState :=
  if s.err.isSome then s else { s with events := s.events ++ [OpEvent.free] }

/-- The store at entry of StencilOperator.apply: inp = daZeros of the
shape of localArray, out = numpy.zeros of the same shape. -/
def initState (op : StencilOp) (arr : List ℤ) : ApplyState :=
  { op := op
    localArray := arr
    inp := List.replicate arr.length 0
    out := List.replicate arr.length 0
    events := []
    err := none }

/-- StencilOperator.apply: expose all windows, apply the stencil, free. -/
def applyOp (op : StencilOp) (arr : List ℤ)
    (fetch : Option Nat → String → Option (List ℤ)) : ApplyState :=
  freePhase (stencilPhase fetch (exposePhase (initState op arr)))

/-! ## Laplacian (src/pnLaplacian.py) -/

/-- The all-zero displacement tuple([0] * ndims). -/
def zeroDisp (n : Nat) : Disp := List.replicate n 0

/-- The unit displacement: [0] * ndims with disp[drect] = pm. -/
def unitDisp (n drect : Nat) (pm : Int) : Disp :=
  (List.replicate n (0 : Int)).set drect pm

/-- The stencil dict built by Laplacian.__init__: start from the zero
displacement with weight -2.0 * ndims, then for drect in range(ndims)
and pm in (-1, 1) assign weight 1.0 to the unit displacement. -/
def laplacianStencil (n : Nat) : List (Disp × ℤ) :=
  (List.range n).foldl
    (fun st drect =>
      [(-1 : Int), 1].foldl (fun st2 pm => dictSet st2 (unitDisp n drect pm) 1) st)
    [(zeroDisp n, -2 * (n : ℤ))]

/-- Modelled from the spec: Partition(ndims).shift(disp).getSlice of
section 4.1, for the 1-D case on a local array of m points; the local
domain shifted one step in direction d and clipped to the array. -/
def shiftSlice (m : Nat) (d : Int) : List Nat :=
  if d = 1 then List.range' 1 (m - 1) else List.range (m - 1)

/-- Modelled from the spec: Partition(ndims).extract(disp).getSlice of
section 4.1, for the 1-D case; the boundary slab of width 1 on the side
of direction d. -/
def extractSlice (m : Nat) (d : Int) : List Nat :=
  if m = 0 then [] else if d = 1 then [m - 1] else [0]

/-- Modelled from the spec: CubeDecomp.getNeighborProc of section 4.2 for
a 1-D ring of P ranks; stepping past an edge wraps when periodic and
yields the no-neighbor sentinel (none) otherwise. -/
def neigh (P : Nat) (periodic : Bool) (r : Nat) (d : Int) : Option Nat :=
  if periodic then some (((r : Int) + d).emod (P : Int)).toNat
  else if 0 ≤ (r : Int) + d ∧ (r : Int) + d < (P : Int) then
    some ((r : Int) + d).toNat
  else none

/-- Events emitted by one rank during Laplacian.apply: the ghost-region
write inp[srcSlab] = localArray[srcSlab] (publish, with the written
data), the remote read inp.getData(rk, winId) (fetch, with the resolved
rank), and a release of exposures, which Laplacian.apply never emits. -/
inductive LapEvent where
  | publish (d : Int) (data : List ℤ)
  | fetch (d : Int) (rk : Option Nat)
  | free
deriving DecidableEq, Repr

/-- Per-rank store threaded through Laplacian.apply: the callers local
array, the ghosted input buffer, the output buffer, the event log. -/
structure LapStore where
  arr : List ℤ
  inp : List ℤ
  out : List ℤ
  events : List LapEvent
deriving DecidableEq, Repr

/-- The ghost write of the loop body for displacement d:
inp[srcSlab] = localArray[srcSlab], with srcSlab = extract(-d). -/
def lapPublish (m : Nat) (arr inp : List ℤ) (d : Int) : List ℤ :=
  setIdx inp (extractSlice m (-d)) (getIdx arr (extractSlice m (-d)))

/-- Modelled from the spec: the state of the ghosted input buffer of a
remote rank when the local rank fetches in the round for displacement d.
Section 5 requires publish-before-fetch per exchange handle; the rounds
run in lockstep over the displacement list [-1, 1], so the remote rank
has completed its ghost writes for every round up to and including d. -/
def lapRemoteInp (m : Nat) (arr : List ℤ) (d : Int) : List ℤ :=
  if d = -1 then lapPublish m arr (List.replicate m 0) (-1)
  else lapPublish m arr (lapPublish m arr (List.replicate m 0) (-1)) 1

/-- The body of the displacement loop of Laplacian.apply for rank r and
displacement d: the local shifted contribution, the ghost write
(publish), and the remote fetch-and-accumulate.  A fetch whose rank is
the no-neighbor sentinel contributes nothing (modelled from the spec,
sections 7 and 9: the exclusion happens inside the external ghosted
array and slice geometry). -/
def lapStep (P m : Nat) (periodic : Bool) (arrs : List (List ℤ)) (r : Nat)
    (d : Int) (s : LapStore) : LapStore :=
  let w : ℤ := (alookup (laplacianStencil 1) [d]).getD 0
  let out1 := addIdx s.out (shiftSlice m (-d)) w (getIdx s.arr (shiftSlice m d))
  let slab := extractSlice m (-d)
  let inp1 := setIdx s.inp slab (getIdx s.arr slab)
  let rk := neigh P periodic r d
  let out2 :=
    match rk with
    | none => out1
    | some rkv =>
        addIdx out1 (extractSlice m d) w
          (getIdx (lapRemoteInp m (arrs.getD rkv []) d) (extractSlice m (-d)))
  { arr := s.arr
    inp := inp1
    out := out2
    events := s.events ++ [LapEvent.publish d (getIdx s.arr slab), LapEvent.fetch d rk] }

/-- The displacements iterated by the 1-D Laplacian.apply loop, in the
insertion order of the srcLocalDomains dict: pm runs over (-1, 1). -/
def lapDisps : List Int := [-1, 1]

/-- Laplacian.apply on rank r of P, local size m: out starts as zeros,
receives the center term weight[zeros] * localArray, then the loop over
the displacements. -/
def lapApplyRank (P m : Nat) (periodic : Bool) (arrs : List (List ℤ))
    (r : Nat) : LapStore :=
  let arr := arrs.getD r []
  let w0 : ℤ := (alookup (laplacianStencil 1) (zeroDisp 1)).getD 0
  let init : LapStore :=
    { arr := arr
      inp := List.replicate m 0
      out := addIdx (List.replicate m 0) (List.range m) w0 arr
      events := [] }
  lapDisps.foldl (fun s d => lapStep P m periodic arrs r d s) init

/-- The global result: the per-rank outputs in rank order. -/
def lapApplyAll (P m : Nat) (periodic : Bool) (arrs : List (List ℤ)) : List ℤ :=
  ((List.range P).map (fun r => (lapApplyRank P m periodic arrs r).out)).flatten

/-! ## Auxiliary definitions used by the theorems -/

/-- Is this Laplacian event a ghost-region publish. -/
def LapEvent.isPub : LapEvent → Bool
  | LapEvent.publish _ _ => true
  | _ => false

/-- Is this Laplacian event a remote fetch. -/
def LapEvent.isFet : LapEvent → Bool
  | LapEvent.fetch _ _ => true
  | _ => false

/-- Every publish-classified event of the trace occurs strictly before
every fetch-classified event (the global two-phase barrier). -/
abbrev pubBeforeFet {α : Type} (isPub isFet : α → Bool) (dflt : α) (tr : List α) : Prop :=
  ∀ i, i < tr.length → ∀ j, j < tr.length →
    isPub (tr.getD i dflt) = true → isFet (tr.getD j dflt) = true → i < j

/-- A concrete one-part partition plan standing in for the output of the
external DomainPartitionIter. -/
def planForDemo : Disp → List DpiPart :=
  fun _ => [{ src := [0], dst := [0], remoteRank := some 1, remoteWinId := "w0" }]

/-- A concrete operator holding one stencil branch whose plan addresses
slice [2] locally, fetching from rank 1. -/
def opC4 : StencilOp :=
  { stencil := [([1], 2)]
    dpis := [([1], [{ src := [2], dst := [0], remoteRank := some 1, remoteWinId := "d1p0" }])] }

/-- A concrete operator whose single partition part carries the
no-neighbor sentinel as its remote rank. -/
def opC8 : StencilOp :=
  { stencil := [([1], 1)]
    dpis := [([1], [{ src := [0], dst := [3], remoteRank := none, remoteWinId := "e0" }])] }

/-- A concrete operator used to exercise the failure path of apply. -/
def opC9 : StencilOp :=
  { stencil := [([-1], 1)]
    dpis := [([-1], [{ src := [1], dst := [1], remoteRank := some 0, remoteWinId := "f0" }])] }

/-- The unit-displacement entries produced by the double loop of
Laplacian.__init__ for the dimension indices in ds, in program order. -/
def lapPairs (n : Nat) (ds : List Nat) : List (Disp × ℤ) :=
  ds.foldr (fun d acc => (unitDisp n d (-1), 1) :: (unitDisp n d 1, 1) :: acc) []

/-- A fresh operator after one addStencilBranch for displacement (1,). -/
def opC1add : StencilOp :=
  addStencilBranch { stencil := [], dpis := [] } [1] 2 planForDemo

/-- The state and error left by removeStencilBranch on opC1add. -/
def opC1rem : StencilOp × Option PyErr := removeStencilBranch opC1add [1]

/-- A fresh operator after one addStencilBranch for displacement (-1,). -/
def opC7add : StencilOp :=
  addStencilBranch { stencil := [], dpis := [] } [-1] 3 planForDemo

/-- The state and error left by removeStencilBranch on opC7add. -/
def opC7rem : StencilOp × Option PyErr := removeStencilBranch opC7add [-1]

/-! ## Structural lemmas about the phases of StencilOperator.apply -/

/-- The expose loop over the parts of one dpis entry only appends expose
events; all other fields of the store are untouched. -/
theorem exposeParts_spec (ps : List DpiPart) (s : ApplyState) :
    ∃ E, (ps.foldl exposePart s).events = s.events ++ E
      ∧ (∀ e ∈ E, ∃ dta w, e = OpEvent.expose dta w)
      ∧ (ps.foldl exposePart s).op = s.op
      ∧ (ps.foldl exposePart s).localArray = s.localArray
      ∧ (ps.foldl exposePart s).inp = s.inp
      ∧ (ps.foldl exposePart s).out = s.out
      ∧ (ps.foldl exposePart s).err = s.err := by
  induction ps generalizing s with
  | nil => exact ⟨[], by simp, by simp, rfl, rfl, rfl, rfl, rfl⟩
  | cons p ps ih =>
      obtain ⟨E, hev, hall, hop, hla, hinp, hout, herr⟩ := ih (exposePart s p)
      refine ⟨OpEvent.expose (getIdx s.inp p.src) p.remoteWinId :: E, ?_, ?_, ?_, ?_, ?_, ?_, ?_⟩
      · simpa [exposePart] using hev
      · intro e he
        rcases List.mem_cons.mp he with h | h
        · exact ⟨_, _, h⟩
        · exact hall e h
      · simpa [exposePart] using hop
      · simpa [exposePart] using hla
      · simpa [exposePart] using hinp
      · simpa [exposePart] using hout
      · simpa [exposePart] using herr

/-- The whole expose phase only appends expose events. -/
theorem exposeItems_spec (items : List (Disp × List DpiPart)) (s : ApplyState) :
    ∃ E, (items.foldl exposeItem s).events = s.events ++ E
      ∧ (∀ e ∈ E, ∃ dta w, e = OpEvent.expose dta w)
      ∧ (items.foldl exposeItem s).op = s.op
      ∧ (items.foldl exposeItem s).localArray = s.localArray
      ∧ (items.foldl exposeItem s).inp = s.inp
      ∧ (items.foldl exposeItem s).out = s.out
      ∧ (items.foldl exposeItem s).err = s.err := by
  induction items generalizing s with
  | nil => exact ⟨[], by simp, by simp, rfl, rfl, rfl, rfl, rfl⟩
  | cons it items ih =>
      obtain ⟨E1, hev1, hall1, hop1, hla1, hinp1, hout1, herr1⟩ := exposeParts_spec it.2 s
      obtain ⟨E2, hev2, hall2, hop2, hla2, hinp2, hout2, herr2⟩ := ih (exposeItem s it)
      refine ⟨E1 ++ E2, ?_, ?_, ?_, ?_, ?_, ?_, ?_⟩
      · rw [List.foldl_cons, hev2]
        show (exposeItem s it).events ++ E2 = s.events ++ (E1 ++ E2)
        rw [show (exposeItem s it).events = s.events ++ E1 from hev1, List.append_assoc]
      · intro e he
        rcases List.mem_append.mp he with h | h
        · exact hall1 e h
        · exact hall2 e h
      · rw [List.foldl_cons, hop2]; exact hop1
      · rw [List.foldl_cons, hla2]; exact hla1
      · rw [List.foldl_cons, hinp2]; exact hinp1
      · rw [List.foldl_cons, hout2]; exact hout1
      · rw [List.foldl_cons, herr2]; exact herr1

/-- The fetch loop over the parts of one stencil branch only appends
fetch events and leaves op, localArray and inp untouched; a pending
exception freezes the store. -/
theorem fetchParts_spec (w : ℤ) (fetch : Option Nat → String → Option (List ℤ))
    (ps : List DpiPart) (s : ApplyState) :
    ∃ F, (ps.foldl (fetchPart w fetch) s).events = s.events ++ F
      ∧ (∀ e ∈ F, ∃ rk wid, e = OpEvent.fetch rk wid)
      ∧ (ps.foldl (fetchPart w fetch) s).op = s.op
      ∧ (ps.foldl (fetchPart w fetch) s).localArray = s.localArray
      ∧ (ps.foldl (fetchPart w fetch) s).inp = s.inp
      ∧ (s.err.isSome = true → ps.foldl (fetchPart w fetch) s = s) := by
  induction ps generalizing s with
  | nil => exact ⟨[], by simp, by simp, rfl, rfl, rfl, fun _ => rfl⟩
  | cons p ps ih =>
      by_cases hse : s.err.isSome = true
      · obtain ⟨F, hev, hall, hop, hla, hinp, hfr⟩ := ih s
        have hstep : fetchPart w fetch s p = s := by
          unfold fetchPart
          rw [if_pos hse]
        refine ⟨F, ?_, hall, ?_, ?_, ?_, ?_⟩
        · rw [List.foldl_cons, hstep]; exact hev
        · rw [List.foldl_cons, hstep]; exact hop
        · rw [List.foldl_cons, hstep]; exact hla
        · rw [List.foldl_cons, hstep]; exact hinp
        · intro _
          rw [List.foldl_cons, hstep]
          exact hfr hse
      · obtain ⟨F, hev, hall, hop, hla, hinp, _⟩ := ih (fetchPart w fetch s p)
        refine ⟨OpEvent.fetch p.remoteRank p.remoteWinId :: F, ?_, ?_, ?_, ?_, ?_, ?_⟩
        · rw [List.foldl_cons, hev]
          have : (fetchPart w fetch s p).events
              = s.events ++ [OpEvent.fetch p.remoteRank p.remoteWinId] := by
            unfold fetchPart
            rw [if_neg hse]
            cases fetch p.remoteRank p.remoteWinId <;> rfl
          rw [this, List.append_assoc]
          rfl
        · intro e he
          rcases List.mem_cons.mp he with h | h
          · exact ⟨_, _, h⟩
          · exact hall e h
        · rw [List.foldl_cons, hop]
          unfold fetchPart
          rw [if_neg hse]
          cases fetch p.remoteRank p.remoteWinId <;> rfl
        · rw [List.foldl_cons, hla]
          unfold fetchPart
          rw [if_neg hse]
          cases fetch p.remoteRank p.remoteWinId <;> rfl
        · rw [List.foldl_cons, hinp]
          unfold fetchPart
          rw [if_neg hse]
          cases fetch p.remoteRank p.remoteWinId <;> rfl
        · intro hcontra
          exact absurd hcontra hse

/-- The stencil phase only appends fetch events and leaves op,
localArray and inp untouched; a pending exception freezes the store. -/
theorem stencilItems_spec (fetch : Option Nat → String → Option (List ℤ))
    (items : List (Disp × ℤ)) (s : ApplyState) :
    ∃ F, (items.foldl (stencilItem fetch) s).events = s.events ++ F
      ∧ (∀ e ∈ F, ∃ rk wid, e = OpEvent.fetch rk wid)
      ∧ (items.foldl (stencilItem fetch) s).op = s.op
      ∧ (items.foldl (stencilItem fetch) s).localArray = s.localArray
      ∧ (items.foldl (stencilItem fetch) s).inp = s.inp
      ∧ (s.err.isSome = true → items.foldl (stencilItem fetch) s = s) := by
  induction items generalizing s with
  | nil => exact ⟨[], by simp, by simp, rfl, rfl, rfl, fun _ => rfl⟩
  | cons it items ih =>
      by_cases hse : s.err.isSome = true
      · obtain ⟨F, hev, hall, hop, hla, hinp, hfr⟩ := ih s
        have hstep : stencilItem fetch s it = s := by
          unfold stencilItem
          rw [if_pos hse]
        refine ⟨F, ?_, hall, ?_, ?_, ?_, ?_⟩
        · rw [List.foldl_cons, hstep]; exact hev
        · rw [List.foldl_cons, hstep]; exact hop
        · rw [List.foldl_cons, hstep]; exact hla
        · rw [List.foldl_cons, hstep]; exact hinp
        · intro _
          rw [List.foldl_cons, hstep]
          exact hfr hse
      · obtain ⟨F2, hev2, hall2, hop2, hla2, hinp2, _⟩ := ih (stencilItem fetch s it)
        have hstep : ∃ F1, (stencilItem fetch s it).events = s.events ++ F1
            ∧ (∀ e ∈ F1, ∃ rk wid, e = OpEvent.fetch rk wid)
            ∧ (stencilItem fetch s it).op = s.op
            ∧ (stencilItem fetch s it).localArray = s.localArray
            ∧ (stencilItem fetch s it).inp = s.inp := by
          unfold stencilItem
          rw [if_neg hse]
          cases plookup s.op.dpis it.1 with
          | none => exact ⟨[], by simp, by simp, rfl, rfl, rfl⟩
          | some parts =>
              obtain ⟨F, hev, hall, hop, hla, hinp, _⟩ := fetchParts_spec it.2 fetch parts s
              exact ⟨F, hev, hall, hop, hla, hinp⟩
        obtain ⟨F1, hev1, hall1, hop1, hla1, hinp1⟩ := hstep
        refine ⟨F1 ++ F2, ?_, ?_, ?_, ?_, ?_, ?_⟩
        · rw [List.foldl_cons, hev2, hev1, List.append_assoc]
        · intro e he
          rcases List.mem_append.mp he with h | h
          · exact hall1 e h
          · exact hall2 e h
        · rw [List.foldl_cons, hop2]; exact hop1
        · rw [List.foldl_cons, hla2]; exact hla1
        · rw [List.foldl_cons, hinp2]; exact hinp1
        · intro hcontra
          exact absurd hcontra hse

/-- Shape of a full run of StencilOperator.apply: the event log is an
expose block, then a fetch block, then the free marker exactly when no
exception is pending; the operator object, the callers array and the
input buffer come out as they went in. -/
theorem applyOp_spec (op : StencilOp) (arr : List ℤ)
    (fetch : Option Nat → String → Option (List ℤ)) :
    ∃ E F G, (applyOp op arr fetch).events = E ++ F ++ G
      ∧ (∀ e ∈ E, ∃ dta w, e = OpEvent.expose dta w)
      ∧ (∀ e ∈ F, ∃ rk wid, e = OpEvent.fetch rk wid)
      ∧ ((applyOp op arr fetch).err = none ∧ G = [OpEvent.free]
          ∨ (applyOp op arr fetch).err ≠ none ∧ G = [])
      ∧ (applyOp op arr fetch).op = op
      ∧ (applyOp op arr fetch).localArray = arr
      ∧ (applyOp op arr fetch).inp = List.replicate arr.length 0 := by
  obtain ⟨E, hevE, hallE, hopE, hlaE, hinpE, houtE, herrE⟩ :=
    exposeItems_spec (initState op arr).op.dpis (initState op arr)
  have hs1 : exposePhase (initState op arr)
      = (initState op arr).op.dpis.foldl exposeItem (initState op arr) := rfl
  set s1 := exposePhase (initState op arr) with hdefs1
  rw [← hs1] at hevE hopE hlaE hinpE houtE herrE
  obtain ⟨F, hevF, hallF, hopF, hlaF, hinpF, _⟩ :=
    stencilItems_spec fetch s1.op.stencil s1
  have hs2 : stencilPhase fetch s1 = s1.op.stencil.foldl (stencilItem fetch) s1 := rfl
  set s2 := stencilPhase fetch s1 with hdefs2
  rw [← hs2] at hevF hopF hlaF hinpF
  have happ : applyOp op arr fetch = freePhase s2 := rfl
  have hinit_ev : (initState op arr).events = [] := rfl
  have hinit_err : (initState op arr).err = none := rfl
  have hinit_op : (initState op arr).op = op := rfl
  have hinit_la : (initState op arr).localArray = arr := rfl
  have hinit_inp : (initState op arr).inp = List.replicate arr.length 0 := rfl
  cases herr2 : s2.err with
  | none =>
      have hfree : freePhase s2 = { s2 with events := s2.events ++ [OpEvent.free] } := by
        unfold freePhase
        rw [if_neg (by rw [herr2]; simp)]
      refine ⟨E, F, [OpEvent.free], ?_, hallE, hallF, ?_, ?_, ?_, ?_⟩
      · rw [happ, hfree]
        show s2.events ++ [OpEvent.free] = E ++ F ++ [OpEvent.free]
        rw [hevF, hevE, hinit_ev, List.nil_append]
      · left
        constructor
        · rw [happ, hfree]
          show s2.err = none
          exact herr2
        · rfl
      · rw [happ, hfree]
        show s2.op = op
        rw [hopF, hopE, hinit_op]
      · rw [happ, hfree]
        show s2.localArray = arr
        rw [hlaF, hlaE, hinit_la]
      · rw [happ, hfree]
        show s2.inp = List.replicate arr.length 0
        rw [hinpF, hinpE, hinit_inp]
  | some e =>
      have hfree : freePhase s2 = s2 := by
        unfold freePhase
        rw [if_pos (by rw [herr2]; rfl)]
      refine ⟨E, F, [], ?_, hallE, hallF, ?_, ?_, ?_, ?_⟩
      · rw [happ, hfree, List.append_nil, hevF, hevE, hinit_ev, List.nil_append]
      · right
        constructor
        · rw [happ, hfree, herr2]
          simp
        · rfl
      · rw [happ, hfree, hopF, hopE, hinit_op]
      · rw [happ, hfree, hlaF, hlaE, hinit_la]
      · rw [happ, hfree, hinpF, hinpE, hinit_inp]

/-- The per-rank event log of the 1-D Laplacian.apply: the loop body
emits, for each displacement in order, the ghost publish followed
immediately by the remote fetch, and never a release. -/
theorem lapApplyRank_events (P m : Nat) (per : Bool) (arrs : List (List ℤ)) (r : Nat) :
    (lapApplyRank P m per arrs r).events =
      [LapEvent.publish (-1) (getIdx (arrs.getD r []) (extractSlice m 1)),
       LapEvent.fetch (-1) (neigh P per r (-1)),
       LapEvent.publish 1 (getIdx (arrs.getD r []) (extractSlice m (-1))),
       LapEvent.fetch 1 (neigh P per r 1)] := rfl

/-- Laplacian.apply leaves the callers local array untouched. -/
theorem lapApplyRank_arr (P m : Nat) (per : Bool) (arrs : List (List ℤ)) (r : Nat) :
    (lapApplyRank P m per arrs r).arr = arrs.getD r [] := rfl

/-! ## Lemmas about the Laplacian stencil dict -/

theorem getD_set_self (l : List Int) (i : Nat) (a : Int) (h : i < l.length) :
    (l.set i a).getD i 0 = a := by
  induction l generalizing i with
  | nil => simp at h
  | cons x xs ih =>
      cases i with
      | zero => rfl
      | succ n =>
          have hn : n < xs.length := by simpa using h
          simpa using ih n hn

theorem getD_set_ne (l : List Int) (i j : Nat) (a : Int) (h : i ≠ j) :
    (l.set i a).getD j 0 = l.getD j 0 := by
  induction l generalizing i j with
  | nil => rfl
  | cons x xs ih =>
      cases i with
      | zero =>
          cases j with
          | zero => exact absurd rfl h
          | succ k => rfl
      | succ n =>
          cases j with
          | zero => rfl
          | succ k =>
              have hnk : n ≠ k := fun hc => h (by rw [hc])
              simpa using ih n k hnk

theorem getD_zeroDisp (n i : Nat) : (zeroDisp n).getD i 0 = 0 := by
  induction n generalizing i with
  | zero => cases i <;> rfl
  | succ k ih =>
      cases i with
      | zero => rfl
      | succ j =>
          show (List.replicate (k + 1) (0 : Int)).getD (j + 1) 0 = 0
          rw [List.replicate_succ, List.getD_cons_succ]
          exact ih j

theorem unitDisp_getD_self (n d : Nat) (pm : Int) (h : d < n) :
    (unitDisp n d pm).getD d 0 = pm :=
  getD_set_self _ _ _ (by simpa using h)

theorem unitDisp_getD_ne (n d j : Nat) (pm : Int) (h : d ≠ j) :
    (unitDisp n d pm).getD j 0 = 0 := by
  rw [unitDisp, getD_set_ne _ _ _ _ h]
  exact getD_zeroDisp n j

theorem unitDisp_ne_zeroDisp (n d : Nat) (pm : Int) (hd : d < n) (hpm : pm ≠ 0) :
    unitDisp n d pm ≠ zeroDisp n := by
  intro hcon
  have h1 := unitDisp_getD_self n d pm hd
  rw [hcon, getD_zeroDisp] at h1
  exact hpm h1.symm

theorem unitDisp_inj (n d d2 : Nat) (pm pm2 : Int) (hd : d < n) (hd2 : d2 < n)
    (hpm : pm ≠ 0) (h : unitDisp n d pm = unitDisp n d2 pm2) :
    d = d2 ∧ pm = pm2 := by
  by_cases hdd : d = d2
  · subst hdd
    have h1 := unitDisp_getD_self n d pm hd
    rw [h, unitDisp_getD_self n d pm2 hd] at h1
    exact ⟨rfl, h1.symm⟩
  · exfalso
    have h1 := unitDisp_getD_self n d pm hd
    rw [h, unitDisp_getD_ne n d2 d pm2 (fun hc => hdd hc.symm)] at h1
    exact hpm h1.symm

theorem dictSet_of_alookup_none (xs : List (Disp × ℤ)) (k : Disp) (v : ℤ)
    (h : alookup xs k = none) : dictSet xs k v = xs ++ [(k, v)] := by
  induction xs with
  | nil => rfl
  | cons p xs ih =>
      obtain ⟨k2, v2⟩ := p
      simp only [alookup] at h
      by_cases hk : k2 = k
      · rw [if_pos hk] at h
        exact absurd h (by simp)
      · rw [if_neg hk] at h
        simp only [dictSet, if_neg hk, List.cons_append, List.cons.injEq, true_and]
        exact ih h

theorem alookup_append_of_none (xs ys : List (Disp × ℤ)) (k : Disp)
    (h : alookup xs k = none) : alookup (xs ++ ys) k = alookup ys k := by
  induction xs with
  | nil => rfl
  | cons p xs ih =>
      obtain ⟨k2, v2⟩ := p
      simp only [alookup] at h
      by_cases hk : k2 = k
      · rw [if_pos hk] at h
        exact absurd h (by simp)
      · rw [if_neg hk] at h
        rw [List.cons_append]
        simp only [alookup, if_neg hk]
        exact ih h

theorem lapFold_closed (n : Nat) (ds : List Nat) :
    ∀ st : List (Disp × ℤ), (∀ d ∈ ds, d < n) → ds.Nodup →
      (∀ d ∈ ds, ∀ pm : Int, pm ≠ 0 → alookup st (unitDisp n d pm) = none) →
      ds.foldl (fun st2 drect =>
          [(-1 : Int), 1].foldl (fun st3 pm => dictSet st3 (unitDisp n drect pm) 1) st2) st
        = st ++ lapPairs n ds := by
  induction ds with
  | nil =>
      intro st _ _ _
      simp [lapPairs]
  | cons d ds ih =>
      intro st hlt hnd hst
      have hdn : d < n := hlt d (List.mem_cons_self d ds)
      have hd1 : alookup st (unitDisp n d (-1)) = none :=
        hst d (List.mem_cons_self d ds) (-1) (by decide)
      have hd2 : alookup st (unitDisp n d 1) = none :=
        hst d (List.mem_cons_self d ds) 1 (by decide)
      have hstep1 : dictSet st (unitDisp n d (-1)) 1 = st ++ [(unitDisp n d (-1), 1)] :=
        dictSet_of_alookup_none _ _ _ hd1
      have hne21 : unitDisp n d (-1) ≠ unitDisp n d 1 := by
        intro hc
        have := (unitDisp_inj n d d (-1) 1 hdn hdn (by decide) hc).2
        exact absurd this (by decide)
      have h2none : alookup (st ++ [(unitDisp n d (-1), 1)]) (unitDisp n d 1) = none := by
        rw [alookup_append_of_none _ _ _ hd2]
        simp only [alookup]
        rw [if_neg hne21]
      have hstep2 : dictSet (st ++ [(unitDisp n d (-1), 1)]) (unitDisp n d 1) 1
          = st ++ [(unitDisp n d (-1), 1)] ++ [(unitDisp n d 1, 1)] :=
        dictSet_of_alookup_none _ _ _ h2none
      have hto : ∀ d2 ∈ ds, ∀ pm : Int, pm ≠ 0 →
          alookup (st ++ [(unitDisp n d (-1), 1)] ++ [(unitDisp n d 1, 1)])
            (unitDisp n d2 pm) = none := by
        intro d2 hd2m pm hpm
        have hdd2 : d ≠ d2 := by
          intro hc
          subst hc
          exact (List.nodup_cons.mp hnd).1 hd2m
        have hq1 : unitDisp n d (-1) ≠ unitDisp n d2 pm := by
          intro hc
          exact hdd2 (unitDisp_inj n d d2 (-1) pm hdn (hlt d2 (List.mem_cons_of_mem d hd2m)) (by decide) hc).1
        have hq2 : unitDisp n d 1 ≠ unitDisp n d2 pm := by
          intro hc
          exact hdd2 (unitDisp_inj n d d2 1 pm hdn (hlt d2 (List.mem_cons_of_mem d hd2m)) (by decide) hc).1
        rw [List.append_assoc, alookup_append_of_none _ _ _
          (hst d2 (List.mem_cons_of_mem d hd2m) pm hpm)]
        simp only [List.cons_append, List.nil_append, alookup]
        rw [if_neg hq1, if_neg hq2]
      have hih := ih (st ++ [(unitDisp n d (-1), 1)] ++ [(unitDisp n d 1, 1)])
        (fun x hx => hlt x (List.mem_cons_of_mem d hx))
        (List.nodup_cons.mp hnd).2 hto
      show List.foldl _ (dictSet (dictSet st (unitDisp n d (-1)) 1) (unitDisp n d 1) 1) ds
          = st ++ lapPairs n (d :: ds)
      rw [hstep1, hstep2, hih]
      show st ++ [(unitDisp n d (-1), 1)] ++ [(unitDisp n d 1, 1)] ++ lapPairs n ds
          = st ++ ((unitDisp n d (-1), 1) :: (unitDisp n d 1, 1) :: lapPairs n ds)
      simp

theorem laplacianStencil_closed (n : Nat) :
    laplacianStencil n = (zeroDisp n, -2 * (n : ℤ)) :: lapPairs n (List.range n) := by
  have hst : ∀ d ∈ List.range n, ∀ pm : Int, pm ≠ 0 →
      alookup [(zeroDisp n, -2 * (n : ℤ))] (unitDisp n d pm) = none := by
    intro d hd pm hpm
    simp only [alookup]
    rw [if_neg (unitDisp_ne_zeroDisp n d pm (List.mem_range.mp hd) hpm).symm]
  have h := lapFold_closed n (List.range n) [(zeroDisp n, -2 * (n : ℤ))]
    (fun d hd => List.mem_range.mp hd) (List.nodup_range n) hst
  simpa [laplacianStencil] using h

theorem mem_lapPairs (n : Nat) (ds : List Nat) (p : Disp × ℤ) (hp : p ∈ lapPairs n ds) :
    ∃ d, d ∈ ds ∧ ∃ pm : Int, (pm = -1 ∨ pm = 1) ∧ p = (unitDisp n d pm, 1) := by
  induction ds with
  | nil => simp [lapPairs] at hp
  | cons d ds ih =>
      have hp2 : p ∈ (unitDisp n d (-1), (1 : ℤ)) :: (unitDisp n d 1, 1) :: lapPairs n ds := hp
      rcases List.mem_cons.mp hp2 with h | h
      · exact ⟨d, List.mem_cons_self d ds, -1, Or.inl rfl, h⟩
      · rcases List.mem_cons.mp h with h2 | h2
        · exact ⟨d, List.mem_cons_self d ds, 1, Or.inr rfl, h2⟩
        · obtain ⟨d2, hd2, pm, hpm, hpeq⟩ := ih h2
          exact ⟨d2, List.mem_cons_of_mem d hd2, pm, hpm, hpeq⟩

theorem alookup_lapPairs_mem (n : Nat) (ds : List Nat) (d : Nat) (pm : Int)
    (hd : d ∈ ds) (hpm : pm = -1 ∨ pm = 1) :
    alookup (lapPairs n ds) (unitDisp n d pm) = some 1 := by
  induction ds with
  | nil => simp at hd
  | cons d2 ds ih =>
      show alookup ((unitDisp n d2 (-1), 1) :: (unitDisp n d2 1, 1) :: lapPairs n ds) _
          = some 1
      simp only [alookup]
      by_cases h1 : unitDisp n d2 (-1) = unitDisp n d pm
      · rw [if_pos h1]
      · rw [if_neg h1]
        by_cases h2 : unitDisp n d2 1 = unitDisp n d pm
        · rw [if_pos h2]
        · rw [if_neg h2]
          rcases List.mem_cons.mp hd with hdd | hdd
          · exfalso
            rcases hpm with hp | hp
            · exact h1 (by rw [hdd, hp])
            · exact h2 (by rw [hdd, hp])
          · exact ih hdd

theorem countKey_lapPairs_not_mem (n : Nat) (ds : List Nat) (d : Nat) (pm : Int)
    (hlt : ∀ x ∈ ds, x < n) (hdn : d < n) (_hpm : pm ≠ 0) (hd : d ∉ ds) :
    countKey (lapPairs n ds) (unitDisp n d pm) = 0 := by
  induction ds with
  | nil => rfl
  | cons d2 ds ih =>
      have hd2n : d2 < n := hlt d2 (List.mem_cons_self d2 ds)
      have hdd : d2 ≠ d := by
        intro hc
        exact hd (hc ▸ List.mem_cons_self d2 ds)
      have hne1 : ¬ (unitDisp n d2 (-1) = unitDisp n d pm) := by
        intro hc
        exact hdd (unitDisp_inj n d2 d (-1) pm hd2n hdn (by decide) hc).1
      have hne2 : ¬ (unitDisp n d2 1 = unitDisp n d pm) := by
        intro hc
        exact hdd (unitDisp_inj n d2 d 1 pm hd2n hdn (by decide) hc).1
      have hrest : countKey (lapPairs n ds) (unitDisp n d pm) = 0 :=
        ih (fun x hx => hlt x (List.mem_cons_of_mem d2 hx))
          (fun hx => hd (List.mem_cons_of_mem d2 hx))
      show countKey ((unitDisp n d2 (-1), 1) :: (unitDisp n d2 1, 1) :: lapPairs n ds) _ = 0
      simp only [countKey, List.countP_cons] at hrest ⊢
      simp [hne1, hne2, hrest]

theorem countKey_lapPairs_mem (n : Nat) (ds : List Nat) (d : Nat) (pm : Int)
    (hlt : ∀ x ∈ ds, x < n) (hnd : ds.Nodup) (hdn : d < n) (hpm : pm = -1 ∨ pm = 1)
    (hd : d ∈ ds) :
    countKey (lapPairs n ds) (unitDisp n d pm) = 1 := by
  induction ds with
  | nil => simp at hd
  | cons d2 ds ih =>
      have hd2n : d2 < n := hlt d2 (List.mem_cons_self d2 ds)
      have hpm0 : pm ≠ 0 := by
        rcases hpm with h | h <;> simp [h]
      rcases List.mem_cons.mp hd with hdd | hdd
      · subst hdd
        have hrest : countKey (lapPairs n ds) (unitDisp n d pm) = 0 :=
          countKey_lapPairs_not_mem n ds d pm
            (fun x hx => hlt x (List.mem_cons_of_mem d hx)) hdn hpm0
            (List.nodup_cons.mp hnd).1
        have hneflip : ¬ (unitDisp n d (-1) = unitDisp n d 1) := by
          intro hc
          have := (unitDisp_inj n d d (-1) 1 hdn hdn (by decide) hc).2
          exact absurd this (by decide)
        have hneflip2 : ¬ (unitDisp n d 1 = unitDisp n d (-1)) := fun hc => hneflip hc.symm
        show countKey ((unitDisp n d (-1), 1) :: (unitDisp n d 1, 1) :: lapPairs n ds) _ = 1
        simp only [countKey, List.countP_cons] at hrest ⊢
        rcases hpm with h | h
        · subst h
          simp [hrest, hneflip, hneflip2]
        · subst h
          simp [hrest, hneflip, hneflip2]
      · have hdd2 : d2 ≠ d := by
          intro hc
          subst hc
          exact (List.nodup_cons.mp hnd).1 hdd
        have hne1 : ¬ (unitDisp n d2 (-1) = unitDisp n d pm) := by
          intro hc
          exact hdd2 (unitDisp_inj n d2 d (-1) pm hd2n hdn (by decide) hc).1
        have hne2 : ¬ (unitDisp n d2 1 = unitDisp n d pm) := by
          intro hc
          exact hdd2 (unitDisp_inj n d2 d 1 pm hd2n hdn (by decide) hc).1
        have hrest : countKey (lapPairs n ds) (unitDisp n d pm) = 1 :=
          ih (fun x hx => hlt x (List.mem_cons_of_mem d2 hx))
            (List.nodup_cons.mp hnd).2 hdd
        show countKey ((unitDisp n d2 (-1), 1) :: (unitDisp n d2 1, 1) :: lapPairs n ds) _ = 1
        simp only [countKey, List.countP_cons] at hrest ⊢
        simp [hne1, hne2, hrest]

theorem countKey_lapPairs_zeroDisp (n : Nat) (ds : List Nat)
    (hlt : ∀ x ∈ ds, x < n) :
    countKey (lapPairs n ds) (zeroDisp n) = 0 := by
  induction ds with
  | nil => rfl
  | cons d ds ih =>
      have hdn : d < n := hlt d (List.mem_cons_self d ds)
      have hne1 : ¬ (unitDisp n d (-1) = zeroDisp n) :=
        unitDisp_ne_zeroDisp n d (-1) hdn (by decide)
      have hne2 : ¬ (unitDisp n d 1 = zeroDisp n) :=
        unitDisp_ne_zeroDisp n d 1 hdn (by decide)
      have hrest := ih (fun x hx => hlt x (List.mem_cons_of_mem d hx))
      show countKey ((unitDisp n d (-1), 1) :: (unitDisp n d 1, 1) :: lapPairs n ds) _ = 0
      simp only [countKey, List.countP_cons] at hrest ⊢
      simp [hne1, hne2, hrest]

/-! ## Claim theorems -/

/-- C1: after addStencilBranch the displacement has exactly one weight
entry and exactly one plan entry, but removeStencilBranch is not its
atomic inverse: del self.stencil succeeds and the following
del self.dpsi raises AttributeError (the attribute is named dpis), so
the partition-plan entry survives the removal. -/
theorem c1_branch_tables_not_atomic :
    countKey opC1add.stencil [1] = 1
    ∧ pcountKey opC1add.dpis [1] = 1
    ∧ opC1rem.2 = some PyErr.attributeError
    ∧ alookup opC1rem.1.stencil [1] = none
    ∧ plookup opC1rem.1.dpis [1] = some (planForDemo [1]) := by decide

/-- C2: the 1-D periodic Laplacian on the 4-point ring with input
[1,2,3,4] returns [4,0,0,-4] when the points are hosted by 1, 2 or 4
ranks, and that list is the wraparound second difference
in[i-1] - 2 in[i] + in[i+1]. -/
theorem c2_laplacian_ring_literal :
    lapApplyAll 1 4 true [[1, 2, 3, 4]] = [4, 0, 0, -4]
    ∧ lapApplyAll 2 2 true [[1, 2], [3, 4]] = [4, 0, 0, -4]
    ∧ lapApplyAll 4 1 true [[1], [2], [3], [4]] = [4, 0, 0, -4]
    ∧ [4, 0, 0, -4]
        = (List.range 4).map (fun i =>
            ([1, 2, 3, 4] : List ℤ).getD ((i + 3) % 4) 0
              - 2 * ([1, 2, 3, 4] : List ℤ).getD i 0
              + ([1, 2, 3, 4] : List ℤ).getD ((i + 1) % 4) 0) := by decide

/-- C3 counterexample: in Laplacian.apply the publish and fetch of later
displacements are interleaved with those of earlier ones, so the event
log of a run violates the all-publishes-before-any-fetch ordering. -/
theorem c3_counterexample :
    ¬ pubBeforeFet LapEvent.isPub LapEvent.isFet LapEvent.free
        (lapApplyRank 1 4 true [[1, 2, 3, 4]] 0).events := by decide

/-- C3 amended: StencilOperator.apply does run two-phase (an expose-only
block, then a fetch-only block, then at most a free marker), while
Laplacian.apply interleaves per displacement: each publish immediately
precedes the fetch of the same displacement. -/
theorem c3_two_phase_amended :
    (∀ op arr fetch, ∃ E F G,
        (applyOp op arr fetch).events = E ++ F ++ G
        ∧ (∀ e ∈ E, ∃ dta w, e = OpEvent.expose dta w)
        ∧ (∀ e ∈ F, ∃ rk wid, e = OpEvent.fetch rk wid)
        ∧ (G = [] ∨ G = [OpEvent.free]))
    ∧ (∀ P m per arrs r, ∃ a b,
        (lapApplyRank P m per arrs r).events =
          [LapEvent.publish (-1) a, LapEvent.fetch (-1) (neigh P per r (-1)),
           LapEvent.publish 1 b, LapEvent.fetch 1 (neigh P per r 1)]) := by
  constructor
  · intro op arr fetch
    obtain ⟨E, F, G, hev, hE, hF, hG, _⟩ := applyOp_spec op arr fetch
    refine ⟨E, F, G, hev, hE, hF, ?_⟩
    rcases hG with ⟨_, h⟩ | ⟨_, h⟩
    · right; exact h
    · left; exact h
  · intro P m per arrs r
    exact ⟨_, _, lapApplyRank_events P m per arrs r⟩

/-- C4: StencilOperator.apply exposes slices of the daZeros buffer inp,
into which localArray is never copied: the exposed data is all zeros
and differs from the sourceHaloSlab of the callers array. -/
theorem c4_expose_is_zero_buffer :
    (applyOp opC4 [5, 6, 7] (fun _ _ => some [9])).events.head?
        = some (OpEvent.expose [0] "d1p0")
    ∧ getIdx [5, 6, 7] [2] = [7]
    ∧ OpEvent.expose (getIdx [5, 6, 7] [2]) "d1p0"
        ∉ (applyOp opC4 [5, 6, 7] (fun _ _ => some [9])).events := by decide

/-- C6: with an empty stencil dict, apply finishes without error and
returns the all-zero array of the shape of the input. -/
theorem c6_empty_stencil_zero (dpis2 : List (Disp × List DpiPart)) (arr : List ℤ)
    (fetch : Option Nat → String → Option (List ℤ)) :
    (applyOp { stencil := [], dpis := dpis2 } arr fetch).err = none
    ∧ (applyOp { stencil := [], dpis := dpis2 } arr fetch).out
        = List.replicate arr.length 0
    ∧ (applyOp { stencil := [], dpis := dpis2 } arr fetch).out.length
        = arr.length := by
  obtain ⟨E, hevE, hallE, hopE, hlaE, hinpE, houtE, herrE⟩ :=
    exposeItems_spec (initState { stencil := [], dpis := dpis2 } arr).op.dpis
      (initState { stencil := [], dpis := dpis2 } arr)
  have hs1 : exposePhase (initState { stencil := [], dpis := dpis2 } arr)
      = (initState { stencil := [], dpis := dpis2 } arr).op.dpis.foldl exposeItem
          (initState { stencil := [], dpis := dpis2 } arr) := rfl
  rw [← hs1] at hopE houtE herrE
  set s1 := exposePhase (initState { stencil := [], dpis := dpis2 } arr) with hdef
  have hstencil : s1.op.stencil = [] := by rw [hopE]; rfl
  have h2 : stencilPhase fetch s1 = s1 := by
    show List.foldl (stencilItem fetch) s1 s1.op.stencil = s1
    rw [hstencil]
    rfl
  have happ : applyOp { stencil := [], dpis := dpis2 } arr fetch = freePhase s1 := by
    show freePhase (stencilPhase fetch (exposePhase
      (initState { stencil := [], dpis := dpis2 } arr))) = freePhase s1
    rw [← hdef, h2]
  have herr1 : s1.err = none := by
    rw [herrE]
    rfl
  have hfree : freePhase s1 = { s1 with events := s1.events ++ [OpEvent.free] } := by
    unfold freePhase
    rw [if_neg (by rw [herr1]; simp)]
  have hout1 : s1.out = List.replicate arr.length 0 := by
    rw [houtE]
    rfl
  refine ⟨?_, ?_, ?_⟩
  · rw [happ, hfree]
    show s1.err = none
    exact herr1
  · rw [happ, hfree]
    show s1.out = List.replicate arr.length 0
    exact hout1
  · rw [happ, hfree]
    show s1.out.length = arr.length
    rw [hout1]
    simp

/-- C7: removeStencilBranch does not undo addStencilBranch: it raises
AttributeError (self.dpsi instead of self.dpis), and although the weight
entry is gone the partition-plan table still differs from the pre-add
state, so the operator object is not restored. -/
theorem c7_remove_fails_to_undo_add :
    opC7rem.2 = some PyErr.attributeError
    ∧ opC7rem.1 ≠ ({ stencil := [], dpis := [] } : StencilOp)
    ∧ opC7rem.1.dpis ≠ ([] : List (Disp × List DpiPart))
    ∧ opC7rem.1.stencil = [] := by decide

/-- C8 counterexample: a displacement whose stored remote rank is the
no-neighbor sentinel is not skipped by StencilOperator.apply: its window
is still exposed and the fetch call is still issued with the sentinel. -/
theorem c8_counterexample :
    plookup opC8.dpis [1]
        = some [{ src := [0], dst := [3], remoteRank := none, remoteWinId := "e0" }]
    ∧ OpEvent.expose [0] "e0"
        ∈ (applyOp opC8 [1, 2, 3, 4] (fun _ _ => some [0])).events
    ∧ OpEvent.fetch none "e0"
        ∈ (applyOp opC8 [1, 2, 3, 4] (fun _ _ => some [0])).events := by decide

/-- C8 amended: the publish and the fetch call still happen for a
no-neighbor displacement, but its halo term is omitted from the output:
the loop body then adds only the local shifted contribution, and the
4-point non-periodic Laplacian leaves the boundary cells with only their
center and interior-neighbor terms. -/
theorem c8_no_neighbor_amended :
    (∀ P m per arrs r d s, neigh P per r d = none →
        (lapStep P m per arrs r d s).out
          = addIdx s.out (shiftSlice m (-d))
              ((alookup (laplacianStencil 1) [d]).getD 0)
              (getIdx s.arr (shiftSlice m d)))
    ∧ lapApplyAll 1 4 false [[1, 2, 3, 4]] = [0, 0, 0, -5] := by
  constructor
  · intro P m per arrs r d s h
    simp [lapStep, h]
  · decide

/-- C8 amended witness at the non-periodic right edge of a serial run. -/
theorem c8_no_neighbor_amended_witness :
    neigh 1 false 0 1 = none
    ∧ (lapStep 1 4 false [[1, 2, 3, 4]] 0 1
          { arr := [1, 2, 3, 4], inp := [0, 0, 0, 0], out := [0, 0, 0, 0],
            events := [] }).out
        = addIdx [0, 0, 0, 0] (shiftSlice 4 (-1))
            ((alookup (laplacianStencil 1) [1]).getD 0)
            (getIdx [1, 2, 3, 4] (shiftSlice 4 1)) :=
  ⟨by decide,
   c8_no_neighbor_amended.1 1 4 false [[1, 2, 3, 4]] 0 1
     { arr := [1, 2, 3, 4], inp := [0, 0, 0, 0], out := [0, 0, 0, 0], events := [] }
     (by decide)⟩

/-- C9 counterexample: Laplacian.apply publishes but never emits a
release, and on a failing fetch StencilOperator.apply propagates the
exception without reaching inp.free(). -/
theorem c9_counterexample :
    ((lapApplyRank 1 4 true [[1, 2, 3, 4]] 0).events ≠ []
      ∧ LapEvent.free ∉ (lapApplyRank 1 4 true [[1, 2, 3, 4]] 0).events)
    ∧ ((applyOp opC9 [1, 2] (fun _ _ => none)).err = some PyErr.fetchError
      ∧ (applyOp opC9 [1, 2] (fun _ _ => none)).events ≠ []
      ∧ OpEvent.free ∉ (applyOp opC9 [1, 2] (fun _ _ => none)).events) := by decide

/-- C9 amended: StencilOperator.apply frees its exposures as its last
action exactly on the error-free path; when a phase fails the free is
skipped, and Laplacian.apply never performs an explicit release. -/
theorem c9_release_amended :
    (∀ op arr fetch, (applyOp op arr fetch).err = none →
        (applyOp op arr fetch).events.getLast? = some OpEvent.free)
    ∧ (∀ op arr fetch, (applyOp op arr fetch).err ≠ none →
        OpEvent.free ∉ (applyOp op arr fetch).events)
    ∧ (∀ P m per arrs r, LapEvent.free ∉ (lapApplyRank P m per arrs r).events) := by
  refine ⟨?_, ?_, ?_⟩
  · intro op arr fetch h
    obtain ⟨E, F, G, hev, _, _, hG, _⟩ := applyOp_spec op arr fetch
    rcases hG with ⟨_, hG⟩ | ⟨hne, _⟩
    · rw [hev, hG]
      exact List.getLast?_concat _
    · exact absurd h hne
  · intro op arr fetch h
    obtain ⟨E, F, G, hev, hE, hF, hG, _⟩ := applyOp_spec op arr fetch
    rcases hG with ⟨heq, _⟩ | ⟨_, hG⟩
    · exact absurd heq h
    · rw [hev, hG, List.append_nil]
      intro hmem
      rcases List.mem_append.mp hmem with hm | hm
      · obtain ⟨dta, w, hcon⟩ := hE _ hm
        exact OpEvent.noConfusion hcon
      · obtain ⟨rk, wid, hcon⟩ := hF _ hm
        exact OpEvent.noConfusion hcon
  · intro P m per arrs r
    rw [lapApplyRank_events]
    simp

/-- C9 amended witness: a run that completes frees last; a run with a
failing fetch never frees. -/
theorem c9_release_amended_witness :
    ((applyOp opC9 [1, 2] (fun _ _ => some [0])).err = none
      ∧ (applyOp opC9 [1, 2] (fun _ _ => some [0])).events.getLast?
          = some OpEvent.free)
    ∧ ((applyOp opC9 [1, 2] (fun _ _ => none)).err ≠ none
      ∧ OpEvent.free ∉ (applyOp opC9 [1, 2] (fun _ _ => none)).events) :=
  ⟨⟨by decide, c9_release_amended.1 opC9 [1, 2] (fun _ _ => some [0]) (by decide)⟩,
   ⟨by decide, c9_release_amended.2.1 opC9 [1, 2] (fun _ _ => none) (by decide)⟩⟩

/-- C10: apply is read-only on its inputs: StencilOperator.apply returns
the operator object and the callers array exactly as passed, so a repeat
call on the returned state and array produces the identical result, and
Laplacian.apply leaves the local array of every rank untouched. -/
theorem c10_apply_frame :
    (∀ op arr fetch,
        (applyOp op arr fetch).op = op
        ∧ (applyOp op arr fetch).localArray = arr
        ∧ applyOp (applyOp op arr fetch).op (applyOp op arr fetch).localArray fetch
            = applyOp op arr fetch)
    ∧ (∀ P m per arrs r, (lapApplyRank P m per arrs r).arr = arrs.getD r []) := by
  constructor
  · intro op arr fetch
    obtain ⟨E, F, G, _, _, _, _, hop, hla, _⟩ := applyOp_spec op arr fetch
    exact ⟨hop, hla, by rw [hop, hla]⟩
  · intro P m per arrs r
    exact lapApplyRank_arr P m per arrs r

/-- C5: for every ndims the stencil dict built by Laplacian.__init__
holds the zero displacement with weight -2 * ndims exactly once, one
weight-1 entry for every unit displacement along every axis, and nothing
else. -/
theorem c5_laplacian_stencil_table (n : Nat) :
    alookup (laplacianStencil n) (zeroDisp n) = some (-2 * (n : ℤ))
    ∧ countKey (laplacianStencil n) (zeroDisp n) = 1
    ∧ (∀ drect : Nat, drect < n → ∀ pm : Int, pm = -1 ∨ pm = 1 →
        alookup (laplacianStencil n) (unitDisp n drect pm) = some 1
        ∧ countKey (laplacianStencil n) (unitDisp n drect pm) = 1)
    ∧ (∀ p ∈ laplacianStencil n,
        p = (zeroDisp n, -2 * (n : ℤ))
        ∨ ∃ drect, drect < n
            ∧ ∃ pm : Int, (pm = -1 ∨ pm = 1) ∧ p = (unitDisp n drect pm, 1)) := by
  rw [laplacianStencil_closed n]
  refine ⟨?_, ?_, ?_, ?_⟩
  · simp [alookup]
  · have h0 : countKey (lapPairs n (List.range n)) (zeroDisp n) = 0 :=
      countKey_lapPairs_zeroDisp n (List.range n) (fun x hx => List.mem_range.mp hx)
    simp only [countKey, List.countP_cons] at h0 ⊢
    simp [h0]
  · intro drect hdr pm hpm
    have hpm0 : pm ≠ 0 := by
      rcases hpm with h | h <;> simp [h]
    have hne : ¬ (zeroDisp n = unitDisp n drect pm) :=
      (unitDisp_ne_zeroDisp n drect pm hdr hpm0).symm
    constructor
    · simp only [alookup]
      rw [if_neg hne]
      exact alookup_lapPairs_mem n (List.range n) drect pm (List.mem_range.mpr hdr) hpm
    · have h1 : countKey (lapPairs n (List.range n)) (unitDisp n drect pm) = 1 :=
        countKey_lapPairs_mem n (List.range n) drect pm
          (fun x hx => List.mem_range.mp hx) (List.nodup_range n) hdr hpm
          (List.mem_range.mpr hdr)
      simp only [countKey, List.countP_cons] at h1 ⊢
      simp [h1, hne]
  · intro p hp
    rcases List.mem_cons.mp hp with h | h
    · exact Or.inl h
    · obtain ⟨d2, hd2, pm, hpmd, hpd⟩ := mem_lapPairs n (List.range n) p h
      exact Or.inr ⟨d2, List.mem_range.mp hd2, pm, hpmd, hpd⟩

/-- C5 witness: the 2-D table holds the zero displacement with weight -4
and the unit displacement along the second axis with weight 1, once. -/
theorem c5_laplacian_stencil_table_witness :
    alookup (laplacianStencil 2) (zeroDisp 2) = some (-2 * (2 : ℤ))
    ∧ alookup (laplacianStencil 2) (unitDisp 2 1 (-1)) = some 1
    ∧ countKey (laplacianStencil 2) (unitDisp 2 1 (-1)) = 1 :=
  ⟨(c5_laplacian_stencil_table 2).1,
   ((c5_laplacian_stencil_table 2).2.2.1 1 (by decide) (-1) (Or.inl rfl)).1,
   ((c5_laplacian_stencil_table 2).2.2.1 1 (by decide) (-1) (Or.inl rfl)).2⟩

end Pnumpy
